import Mathlib

set_option maxRecDepth 10000

/-!
Shallow embedding of `src/netscape_cookies/netscape_cookies.py`.

Python strings are modelled as `List Char` (the ASCII fragment: the
whitespace set of `str.strip`, the digit set of `str.isdigit` and the
letter mapping of `str.upper` are modelled on ASCII characters).
Python `dict` values keyed by cookie name are modelled as association
lists with unique keys in which assignment replaces in place.
-/

namespace NetscapeCookies

/-- Whitespace test of Python `str.strip()`, ASCII fragment. -/
def pyIsSpace (c : Char) : Bool :=
  c = ' ' || c = '\t' || c = '\n' || c = '\r' || c = '\x0b' || c = '\x0c'

/-- Python `str.strip()`: drop whitespace at both ends. -/
def pyStrip (l : List Char) : List Char :=
  ((l.dropWhile pyIsSpace).reverse.dropWhile pyIsSpace).reverse

/-- Python `str.split(sep)` for a one-character separator: splitting the
empty string gives one empty field, every occurrence of the separator
closes a field. -/
def splitOnChar (sep : Char) : List Char → List (List Char)
  | [] => [[]]
  | c :: cs =>
    if c = sep then [] :: splitOnChar sep cs
    else
      match splitOnChar sep cs with
      | [] => [[c]]
      | f :: rest => (c :: f) :: rest

/-- Python `sep.join(parts)` for a one-character separator. -/
def joinChar (sep : Char) : List (List Char) → List Char
  | [] => []
  | [f] => f
  | f :: g :: rest => f ++ sep :: joinChar sep (g :: rest)

/-- Python `str.upper()`, ASCII fragment. -/
def pyUpper (l : List Char) : List Char := l.map Char.toUpper

/-- Python `str.isdigit()`, ASCII fragment: nonempty and all decimal digits. -/
def pyIsDigit (l : List Char) : Bool := !l.isEmpty && l.all Char.isDigit

/-- Value of an all-digit decimal string, as Python `int()` computes it. -/
def digitsVal (l : List Char) : Nat :=
  l.foldl (fun a c => a * 10 + (c.toNat - 48)) 0

/-- Decimal rendering worker; the fuel only makes the recursion structural,
any fuel at least the number of digits (for instance `n + 1`) is enough. -/
def natDigitsGo : Nat → Nat → List Char → List Char
  | 0, _, acc => acc
  | fuel + 1, n, acc =>
    if n < 10 then Char.ofNat (48 + n % 10) :: acc
    else natDigitsGo fuel (n / 10) (Char.ofNat (48 + n % 10) :: acc)

/-- Python `str(n)` for a natural number. -/
def natDigits (n : Nat) : List Char := natDigitsGo (n + 1) n []

/-- Python `str(i)` for an integer. -/
def intStr (i : Int) : List Char :=
  if i < 0 then '-' :: natDigits i.natAbs else natDigits i.toNat

/-- The marker string of lines 93-106. -/
def httpOnlyMarker : List Char := "#HttpOnly_".data

/-- Python `s.replace("#HttpOnly_", "")` (line 103): remove every
occurrence, scanning left to right.  The fuel only makes the recursion
structural; the initial fuel `l.length` is enough because every step
consumes at least one character. -/
def removeHttpOnlyGo : Nat → List Char → List Char
  | _, [] => []
  | 0, l => l
  | fuel + 1, c :: cs =>
    if httpOnlyMarker.isPrefixOf (c :: cs) then removeHttpOnlyGo fuel (cs.drop 9)
    else c :: removeHttpOnlyGo fuel cs

/-- Python `s.replace("#HttpOnly_", "")`. -/
def removeHttpOnly (l : List Char) : List Char := removeHttpOnlyGo l.length l

/-- From the spec's words, not the source: strip one leading
`#HttpOnly_` marker only, leaving the rest of the field unchanged.  Used
to compare the claimed behaviour with the behaviour of the code. -/
def specStripLeadingHttpOnly (l : List Char) : List Char :=
  if httpOnlyMarker.isPrefixOf l then l.drop 10 else l

/-- The `Cookie` class (lines 5-48).  `expiration` is declared as an int
but `save_to_file` also guards against `None`, so it is modelled as an
optional integer, with `none` standing for Python's `None`. -/
structure Cookie where
  domain : List Char
  flag : Bool
  path : List Char
  secure : Bool
  expiration : Option Int
  name : List Char
  value : List Char
  deriving DecidableEq

/-- A raw cookie mapping handed to `to_netscape_string`, with the
defaults of the `cookie.get(...)` calls (lines 63-68) already applied:
a missing `domain`, `path`, `name` or `value` is the empty string, a
missing `secure` is false, a missing `expiry` is `None` (`none`). -/
structure RawCookie where
  domain : List Char
  expiry : Option Int
  path : List Char
  secure : Bool
  name : List Char
  value : List Char
  deriving DecidableEq

/-- `str(b).upper()` for a Python bool (lines 76 and 78). -/
def pyBoolUpper (b : Bool) : List Char := if b then "TRUE".data else "FALSE".data

/-- Line 70: `domain.startswith(".") if domain else False`. -/
def includeSubDomain (domain : List Char) : Bool :=
  if domain.isEmpty then false else ".".data.isPrefixOf domain

/-- Line 71: `str(int(expiration_date)) if expiration_date else "0"`;
both `None` and `0` are falsy. -/
def rawExpiryString (e : Option Int) : List Char :=
  match e with
  | none => "0".data
  | some k => if k = 0 then "0".data else intStr k

/-- The seven-element list appended for one cookie in
`to_netscape_string` (lines 73-83). -/
def rawRow (c : RawCookie) : List (List Char) :=
  [c.domain, pyBoolUpper (includeSubDomain c.domain), c.path,
   pyBoolUpper c.secure, rawExpiryString c.expiry, c.name, c.value]

/-- `to_netscape_string` (lines 51-85): tab-join each row, newline-join
the rows, no header, no trailing newline. -/
def to_netscape_string (cookieData : List RawCookie) : List Char :=
  joinChar '\n' (cookieData.map (fun c => joinChar '\t' (rawRow c)))

/-- Lines 178-179: `"TRUE" if b else "FALSE"`. -/
def flagString (b : Bool) : List Char := if b then "TRUE".data else "FALSE".data

/-- Lines 180-184: `str(e) if e is not None and e > 0 else ""`. -/
def saveExpirationString (e : Option Int) : List Char :=
  match e with
  | none => []
  | some k => if 0 < k then intStr k else []

/-- The tab-separated body of one `save_to_file` line (the f-string of
line 188 before its final newline). -/
def saveLineBody (c : Cookie) : List Char :=
  c.domain ++ '\t' :: (flagString c.flag ++ '\t' :: (c.path ++ '\t' ::
    (flagString c.secure ++ '\t' :: (saveExpirationString c.expiration ++ '\t' ::
      (c.name ++ '\t' :: c.value)))))

/-- One full line written by `save_to_file` for one cookie. -/
def saveCookieLine (c : Cookie) : List Char := saveLineBody c ++ ['\n']

/-- The three comment lines plus blank line written first by
`save_to_file` (lines 172-174). -/
def netscapeHeader : List Char :=
  ("# Netscape HTTP Cookie File\n# http://curl.haxx.se/rfc/cookie_spec.html\n# This is a generated file!  Do not edit.\n\n").data

/-- The full text `save_to_file` (lines 167-190) writes to its file. -/
def save_to_file (cookies : List Cookie) : List Char :=
  netscapeHeader ++ (cookies.map saveCookieLine).flatten

/-- Lines 101-118: build a `Cookie` from the first seven tab fields. -/
def cookieFromFields (f : List (List Char)) : Cookie :=
  { domain :=
      if "#HttpOnly".data.isPrefixOf (f.getD 0 []) then removeHttpOnly (f.getD 0 [])
      else f.getD 0 []
    flag := pyUpper (f.getD 1 []) == "TRUE".data
    path := f.getD 2 []
    secure := pyUpper (f.getD 3 []) == "TRUE".data
    expiration := some (if pyIsDigit (f.getD 4 []) then (digitsVal (f.getD 4 []) : Int) else 0)
    name := f.getD 5 []
    value := f.getD 6 [] }

/-- Python dict assignment `d[k] = v` on an association list: replace in
place if the key is present, append otherwise. -/
def dictSet : List (List Char × Cookie) → List Char → Cookie → List (List Char × Cookie)
  | [], k, v => [(k, v)]
  | (k', v') :: rest, k, v =>
    if k = k' then (k, v) :: rest else (k', v') :: dictSet rest k v

/-- Python dict lookup `d[k]` on an association list. -/
def dictFind : List (List Char × Cookie) → List Char → Option Cookie
  | [], _ => none
  | (k', v') :: rest, k => if k = k' then some v' else dictFind rest k

/-- The body of the `for line in lines` loop of `parse_from_string`
(lines 92-124): skip comment lines unless they carry the `#HttpOnly_`
marker, strip and tab-split the line, drop it when it has fewer than
seven fields, otherwise store the record under its name. -/
def parseLineStep (d : List (List Char × Cookie)) (line : List Char) :
    List (List Char × Cookie) :=
  if "#".data.isPrefixOf line && !("#HttpOnly_".data.isPrefixOf line) then d
  else
    let lineFields := splitOnChar '\t' (pyStrip line)
    if 7 ≤ lineFields.length then
      dictSet d (lineFields.getD 5 []) (cookieFromFields lineFields)
    else d

/-- `parse_from_string` (lines 88-125). -/
def parse_from_string (s : List Char) : List (List Char × Cookie) :=
  ((splitOnChar '\n' s).filter (fun l => !(pyStrip l).isEmpty)).foldl parseLineStep []

/-- The record a single line contributes to the parse, if any; the loop
body `parseLineStep` either inserts exactly this record or leaves the
dict unchanged. -/
def parseLineRecord (line : List Char) : Option (List Char × Cookie) :=
  if "#".data.isPrefixOf line && !("#HttpOnly_".data.isPrefixOf line) then none
  else
    let lineFields := splitOnChar '\t' (pyStrip line)
    if 7 ≤ lineFields.length then
      some (lineFields.getD 5 [], cookieFromFields lineFields)
    else none

/-- The records contributed by lines of `s` whose cookie name is `nm`,
in input order. -/
def entriesFor (s : List Char) (nm : List Char) : List (List Char × Cookie) :=
  (((splitOnChar '\n' s).filter (fun l => !(pyStrip l).isEmpty)).filterMap
    parseLineRecord).filter (fun p => p.1 == nm)

/-- The keys of an association list. -/
def keysOf (d : List (List Char × Cookie)) : List (List Char) := d.map Prod.fst

/-- Side conditions under which one `Cookie` survives the
save-then-parse round trip unchanged: no tab or newline in any string
field, a nonempty domain whose first character is neither whitespace
nor a comment mark, a nonempty value not ending in whitespace, and a
present, strictly positive expiration. -/
def goodCookie (c : Cookie) : Bool :=
  (c.domain ++ c.path ++ c.name ++ c.value).all (fun ch => ch != '\t' && ch != '\n') &&
  (match c.domain with
   | [] => false
   | dh :: _ => !pyIsSpace dh && dh != '#') &&
  (match c.value.getLast? with
   | none => false
   | some lc => !pyIsSpace lc) &&
  (match c.expiration with
   | none => false
   | some e => decide (0 < e))

/-! ### Lemmas about the string utilities -/

theorem splitOnChar_sep_cons (sep : Char) (cs : List Char) :
    splitOnChar sep (sep :: cs) = [] :: splitOnChar sep cs := by
  simp [splitOnChar]

theorem splitOnChar_no_sep {sep : Char} {xs : List Char}
    (h : ∀ c ∈ xs, c ≠ sep) : splitOnChar sep xs = [xs] := by
  induction xs with
  | nil => rfl
  | cons c cs ih =>
    have hc : c ≠ sep := h c (by simp)
    have ihs : splitOnChar sep cs = [cs] := ih (fun x hx => h x (by simp [hx]))
    simp [splitOnChar, hc, ihs]

theorem splitOnChar_append_sep {sep : Char} {xs : List Char} (rest : List Char)
    (h : ∀ c ∈ xs, c ≠ sep) :
    splitOnChar sep (xs ++ sep :: rest) = xs :: splitOnChar sep rest := by
  induction xs with
  | nil => simp [splitOnChar_sep_cons]
  | cons c cs ih =>
    have hc : c ≠ sep := h c (by simp)
    have ihs := ih (fun x hx => h x (by simp [hx]))
    simp only [List.cons_append, splitOnChar, hc, if_false, List.append_eq, ihs]

theorem joinChar_cons (sep : Char) (f : List Char) {fs : List (List Char)}
    (h : fs ≠ []) : joinChar sep (f :: fs) = f ++ sep :: joinChar sep fs := by
  cases fs with
  | nil => exact absurd rfl h
  | cons g rest => rfl

theorem splitOnChar_joinChar {sep : Char} {fs : List (List Char)} (hne : fs ≠ [])
    (h : ∀ f ∈ fs, ∀ c ∈ f, c ≠ sep) :
    splitOnChar sep (joinChar sep fs) = fs := by
  induction fs with
  | nil => exact absurd rfl hne
  | cons f fs ih =>
    cases fs with
    | nil => exact splitOnChar_no_sep (h f (by simp))
    | cons g rest =>
      rw [joinChar_cons sep f (by simp),
        splitOnChar_append_sep _ (h f (by simp)),
        ih (by simp) (fun x hx c hc => h x (by simp [hx]) c hc)]

theorem joinChar_head (sep dh : Char) (dt : List Char) (fs : List (List Char)) :
    ∃ r, joinChar sep ((dh :: dt) :: fs) = dh :: r := by
  cases fs with
  | nil => exact ⟨dt, rfl⟩
  | cons g rest => exact ⟨dt ++ sep :: joinChar sep (g :: rest), rfl⟩

theorem joinChar_getLast? {sep : Char} {fs : List (List Char)} {fl : List Char}
    (h : fs.getLast? = some fl) (hne : fl ≠ []) :
    (joinChar sep fs).getLast? = fl.getLast? := by
  induction fs with
  | nil => simp at h
  | cons f fs ih =>
    cases fs with
    | nil =>
      simp at h
      cases h
      rfl
    | cons g rest =>
      rw [List.getLast?_cons_cons] at h
      have hx := ih h
      rw [joinChar_cons sep f (by simp)]
      have hjoin_ne : joinChar sep (g :: rest) ≠ [] := by
        intro hcon
        rw [hcon] at hx
        cases fl with
        | nil => exact hne rfl
        | cons a l => exact absurd hx.symm (by simp)
      rw [List.getLast?_append_of_ne_nil _ (by simp)]
      cases hj : joinChar sep (g :: rest) with
      | nil => exact absurd hj hjoin_ne
      | cons j js => rw [List.getLast?_cons_cons, ← hj, hx]

theorem dropWhile_head_false {p : Char → Bool} {l : List Char}
    (h : ∀ c ∈ l.head?, p c = false) : l.dropWhile p = l := by
  cases l with
  | nil => rfl
  | cons c cs =>
    have hc : p c = false := h c (by simp)
    simp [List.dropWhile_cons, hc]

theorem pyStrip_eq_self {l : List Char}
    (h1 : ∀ c ∈ l.head?, pyIsSpace c = false)
    (h2 : ∀ c ∈ l.getLast?, pyIsSpace c = false) : pyStrip l = l := by
  unfold pyStrip
  rw [dropWhile_head_false h1, dropWhile_head_false (by
    intro c hc
    rw [List.head?_reverse] at hc
    exact h2 c hc), List.reverse_reverse]

/-! ### Lemmas about decimal rendering -/

theorem natDigitsGo_succ (fuel n : Nat) (acc : List Char) :
    natDigitsGo (fuel + 1) n acc =
      if n < 10 then Char.ofNat (48 + n % 10) :: acc
      else natDigitsGo fuel (n / 10) (Char.ofNat (48 + n % 10) :: acc) := rfl

theorem natDigitsGo_acc (n : Nat) : ∀ fuel acc, n < fuel →
    natDigitsGo fuel n acc = natDigits n ++ acc := by
  induction n using Nat.strong_induction_on with
  | _ n ih =>
    intro fuel acc hfuel
    cases fuel with
    | zero => omega
    | succ fuel =>
      by_cases hsmall : n < 10
      · rw [natDigitsGo_succ, if_pos hsmall, natDigits, natDigitsGo_succ, if_pos hsmall]
        simp
      · have hdiv : n / 10 < n := Nat.div_lt_self (by omega) (by omega)
        have h2 : natDigits n
            = natDigitsGo n (n / 10) [Char.ofNat (48 + n % 10)] := by
          conv_lhs => rw [natDigits, natDigitsGo_succ, if_neg hsmall]
        rw [natDigitsGo_succ, if_neg hsmall, h2,
          ih (n / 10) hdiv fuel _ (by omega),
          ih (n / 10) hdiv n _ (by omega)]
        simp

theorem digitsVal_append (xs : List Char) (c : Char) :
    digitsVal (xs ++ [c]) = digitsVal xs * 10 + (c.toNat - 48) := by
  simp [digitsVal, List.foldl_append]

theorem digitChar_facts {d : Nat} (h : d < 10) :
    (Char.ofNat (48 + d)).isDigit = true ∧ (Char.ofNat (48 + d)).toNat = 48 + d ∧
    pyIsSpace (Char.ofNat (48 + d)) = false ∧ Char.ofNat (48 + d) ≠ '\t' ∧
    Char.ofNat (48 + d) ≠ '\n' ∧ Char.ofNat (48 + d) ≠ '#' := by
  interval_cases d <;> exact ⟨by decide, by decide, by decide, by decide, by decide, by decide⟩

theorem natDigits_structure (n : Nat) :
    (n < 10 ∧ natDigits n = [Char.ofNat (48 + n % 10)]) ∨
    (10 ≤ n ∧ natDigits n = natDigits (n / 10) ++ [Char.ofNat (48 + n % 10)]) := by
  by_cases hsmall : n < 10
  · left
    refine ⟨hsmall, ?_⟩
    rw [natDigits, natDigitsGo_succ, if_pos hsmall]
  · right
    refine ⟨by omega, ?_⟩
    have hdiv : n / 10 < n := Nat.div_lt_self (by omega) (by omega)
    rw [natDigits, natDigitsGo_succ, if_neg hsmall,
      natDigitsGo_acc (n / 10) n _ (by omega)]

theorem digitsVal_natDigits (n : Nat) : digitsVal (natDigits n) = n := by
  induction n using Nat.strong_induction_on with
  | _ n ih =>
    rcases natDigits_structure n with ⟨hs, heq⟩ | ⟨hs, heq⟩
    · rw [heq]
      have := (digitChar_facts (d := n % 10) (by omega)).2.1
      simp [digitsVal, this]
      omega
    · rw [heq, digitsVal_append,
        ih (n / 10) (Nat.div_lt_self (by omega) (by omega)),
        (digitChar_facts (d := n % 10) (by omega)).2.1]
      omega

theorem natDigits_mem (n : Nat) :
    ∀ c ∈ natDigits n, ∃ d, d < 10 ∧ c = Char.ofNat (48 + d) := by
  induction n using Nat.strong_induction_on with
  | _ n ih =>
    intro c hc
    rcases natDigits_structure n with ⟨hs, heq⟩ | ⟨hs, heq⟩
    · rw [heq] at hc
      simp at hc
      exact ⟨n % 10, by omega, hc⟩
    · rw [heq] at hc
      rcases List.mem_append.mp hc with hmem | hmem
      · exact ih (n / 10) (Nat.div_lt_self (by omega) (by omega)) c hmem
      · simp at hmem
        exact ⟨n % 10, by omega, hmem⟩

theorem natDigits_ne_nil (n : Nat) : natDigits n ≠ [] := by
  rcases natDigits_structure n with ⟨_, heq⟩ | ⟨_, heq⟩ <;> simp [heq]

theorem pyIsDigit_natDigits (n : Nat) : pyIsDigit (natDigits n) = true := by
  unfold pyIsDigit
  rw [Bool.and_eq_true, List.all_eq_true]
  constructor
  · cases h : natDigits n with
    | nil => exact absurd h (natDigits_ne_nil n)
    | cons c cs => simp
  · intro c hc
    rcases natDigits_mem n c hc with ⟨d, hd, rfl⟩
    exact (digitChar_facts hd).1

theorem intStr_pos {e : Int} (h : 0 < e) : intStr e = natDigits e.toNat := by
  unfold intStr
  rw [if_neg (by omega)]

/-! ### Lemmas about `List.isPrefixOf` -/

theorem isPrefixOf_nil_left (bs : List Char) : List.isPrefixOf [] bs = true := by
  cases bs <;> rfl

theorem isPrefixOf_cons₂ (a b : Char) (as bs : List Char) :
    (a :: as).isPrefixOf (b :: bs) = (a == b && as.isPrefixOf bs) := rfl

theorem isPrefixOf_trans : ∀ {a b c : List Char},
    a.isPrefixOf b = true → b.isPrefixOf c = true → a.isPrefixOf c = true := by
  intro a
  induction a with
  | nil => intro b c _ _; exact isPrefixOf_nil_left c
  | cons x xs ih =>
    intro b c h1 h2
    cases b with
    | nil => simp [List.isPrefixOf] at h1
    | cons y ys =>
      cases c with
      | nil => simp [List.isPrefixOf] at h2
      | cons z zs =>
        rw [isPrefixOf_cons₂, Bool.and_eq_true] at h1
        rw [isPrefixOf_cons₂, Bool.and_eq_true] at h2
        rw [isPrefixOf_cons₂, Bool.and_eq_true]
        refine ⟨?_, ih h1.2 h2.2⟩
        have e1 : x = y := by simpa using h1.1
        have e2 : y = z := by simpa using h2.1
        simp [e1, e2]

theorem hashHead_isPrefixOf_false {pat : List Char} {dh : Char}
    (hpat : pat.head? = some '#') (hdh : dh ≠ '#') (r : List Char) :
    pat.isPrefixOf (dh :: r) = false := by
  cases pat with
  | nil => simp at hpat
  | cons p ps =>
    simp at hpat
    subst hpat
    rw [isPrefixOf_cons₂]
    simp [Ne.symm hdh]

theorem headChar_of_marker {f0 : List Char}
    (h : "#HttpOnly_".data.isPrefixOf f0 = true) : ∃ r, f0 = '#' :: r := by
  cases f0 with
  | nil => simp [List.isPrefixOf] at h
  | cons c cs =>
    rw [show "#HttpOnly_".data = '#' :: "HttpOnly_".data from rfl,
      isPrefixOf_cons₂, Bool.and_eq_true] at h
    have : '#' = c := by simpa using h.1
    exact ⟨cs, by rw [← this]⟩

/-! ### The shape of one good cookie, and what one parsed line does -/

theorem goodCookie_spec {c : Cookie} (h : goodCookie c = true) :
    (∀ ch ∈ c.domain ++ c.path ++ c.name ++ c.value, ch ≠ '\t' ∧ ch ≠ '\n') ∧
    (∃ dh dt, c.domain = dh :: dt ∧ pyIsSpace dh = false ∧ dh ≠ '#') ∧
    (∃ lc, c.value.getLast? = some lc ∧ pyIsSpace lc = false) ∧
    (∃ e, c.expiration = some e ∧ 0 < e) := by
  unfold goodCookie at h
  rw [Bool.and_eq_true, Bool.and_eq_true, Bool.and_eq_true] at h
  obtain ⟨⟨⟨hall, hdom⟩, hval⟩, hexp⟩ := h
  refine ⟨?_, ?_, ?_, ?_⟩
  · intro ch hch
    have := List.all_eq_true.mp hall ch hch
    rw [Bool.and_eq_true, bne_iff_ne, bne_iff_ne] at this
    exact this
  · cases hd : c.domain with
    | nil => rw [hd] at hdom; simp at hdom
    | cons dh dt =>
      rw [hd] at hdom
      simp only [Bool.and_eq_true, Bool.not_eq_true', bne_iff_ne] at hdom
      exact ⟨dh, dt, rfl, hdom.1, hdom.2⟩
  · cases hv : c.value.getLast? with
    | none => rw [hv] at hval; simp at hval
    | some lc =>
      rw [hv] at hval
      rw [Bool.not_eq_true'] at hval
      exact ⟨lc, rfl, hval⟩
  · cases he : c.expiration with
    | none => rw [he] at hexp; simp at hexp
    | some e => exact ⟨e, rfl, of_decide_eq_true (by rw [he] at hexp; exact hexp)⟩

theorem parseLineStep_joinChar (fs : List (List Char)) (d : List (List Char × Cookie))
    (hlen : 7 ≤ fs.length)
    (htab : ∀ f ∈ fs, ∀ c ∈ f, c ≠ '\t')
    (hhead : ∃ dh dt fs', fs = (dh :: dt) :: fs' ∧ pyIsSpace dh = false)
    (hcomment : "#".data.isPrefixOf (joinChar '\t' fs) = true →
      "#HttpOnly_".data.isPrefixOf (joinChar '\t' fs) = true)
    (hlast : ∃ fl lc, fs.getLast? = some fl ∧ fl.getLast? = some lc ∧
      pyIsSpace lc = false) :
    parseLineStep d (joinChar '\t' fs) = dictSet d (fs.getD 5 []) (cookieFromFields fs) := by
  obtain ⟨dh, dt, fs', hfs, hdh⟩ := hhead
  obtain ⟨fl, lc, hfl, hlc, hlcw⟩ := hlast
  have hfl_ne : fl ≠ [] := by
    intro hcon
    rw [hcon] at hlc
    simp at hlc
  obtain ⟨r, hline⟩ := joinChar_head '\t' dh dt fs'
  have hhead? : (joinChar '\t' fs).head? = some dh := by rw [hfs, hline]; rfl
  have hlast? : (joinChar '\t' fs).getLast? = some lc := by
    rw [joinChar_getLast? hfl hfl_ne, hlc]
  have hstrip : pyStrip (joinChar '\t' fs) = joinChar '\t' fs := by
    refine pyStrip_eq_self ?_ ?_
    · intro x hx
      rw [hhead?] at hx
      simp at hx
      rw [← hx]; exact hdh
    · intro x hx
      rw [hlast?] at hx
      simp at hx
      rw [← hx]; exact hlcw
  have hsplit : splitOnChar '\t' (joinChar '\t' fs) = fs :=
    splitOnChar_joinChar (by rw [hfs]; simp) htab
  have hcond : ("#".data.isPrefixOf (joinChar '\t' fs) &&
      !("#HttpOnly_".data.isPrefixOf (joinChar '\t' fs))) = false := by
    cases hc1 : "#".data.isPrefixOf (joinChar '\t' fs) with
    | false => simp
    | true => simp [hcomment hc1]
  unfold parseLineStep
  rw [hcond]
  simp only [Bool.false_eq_true, if_false, hstrip, hsplit, hlen, if_pos]

theorem pyUpper_flagString (b : Bool) : (pyUpper (flagString b) == "TRUE".data) = b := by
  cases b <;> decide

theorem flagString_chars (b : Bool) :
    ∀ c ∈ flagString b, c ≠ '\t' ∧ c ≠ '\n' := by
  cases b <;> decide

theorem natDigits_chars (n : Nat) :
    ∀ c ∈ natDigits n, pyIsSpace c = false ∧ c ≠ '\t' ∧ c ≠ '\n' ∧ c ≠ '#' := by
  intro c hc
  rcases natDigits_mem n c hc with ⟨d, hd, rfl⟩
  have hf := digitChar_facts hd
  exact ⟨hf.2.2.1, hf.2.2.2.1, hf.2.2.2.2.1, hf.2.2.2.2.2⟩

theorem saveExpiration_digits {e : Int} (he : 0 < e) :
    saveExpirationString (some e) = natDigits e.toNat := by
  unfold saveExpirationString
  show (if 0 < e then intStr e else []) = natDigits e.toNat
  rw [if_pos he, intStr_pos he]

/-- The fields of one written line. -/
def saveFields (c : Cookie) : List (List Char) :=
  [c.domain, flagString c.flag, c.path, flagString c.secure,
   saveExpirationString c.expiration, c.name, c.value]

theorem saveLineBody_eq_join (c : Cookie) :
    saveLineBody c = joinChar '\t' (saveFields c) := rfl

theorem cookieFromFields_save {c : Cookie} (h : goodCookie c = true) :
    cookieFromFields (saveFields c) = c := by
  obtain ⟨hall, ⟨dh, dt, hdom, hdh, hdh2⟩, ⟨lc, hlc, hlcw⟩, ⟨e, hexp, hepos⟩⟩ :=
    goodCookie_spec h
  have hdom9 : "#HttpOnly".data.isPrefixOf c.domain = false := by
    rw [hdom]
    refine hashHead_isPrefixOf_false ?_ hdh2 dt
    rfl
  have hexpstr : saveExpirationString c.expiration = natDigits e.toNat := by
    rw [hexp, saveExpiration_digits hepos]
  obtain ⟨cd, cf, cp, cs, ce, cn, cv⟩ := c
  simp only at hdom9 hexpstr hexp
  unfold cookieFromFields saveFields
  simp only [List.getD_cons_zero, List.getD_cons_succ, hdom9, Bool.false_eq_true,
    if_false]
  rw [Cookie.mk.injEq]
  refine ⟨rfl, pyUpper_flagString cf, rfl, pyUpper_flagString cs, ?_, rfl, rfl⟩
  rw [hexpstr, hexp]
  rw [show pyIsDigit (natDigits e.toNat) = true from pyIsDigit_natDigits e.toNat]
  rw [if_pos rfl, digitsVal_natDigits, Int.toNat_of_nonneg (le_of_lt hepos)]

theorem parseLineStep_save {c : Cookie} (h : goodCookie c = true)
    (d : List (List Char × Cookie)) :
    parseLineStep d (saveLineBody c) = dictSet d c.name c := by
  obtain ⟨hall, ⟨dh, dt, hdom, hdh, hdh2⟩, ⟨lc, hlc, hlcw⟩, ⟨e, hexp, hepos⟩⟩ :=
    goodCookie_spec h
  have htab : ∀ f ∈ saveFields c, ∀ ch ∈ f, ch ≠ '\t' := by
    intro f hf ch hch
    unfold saveFields at hf
    simp only [List.mem_cons, List.not_mem_nil, or_false] at hf
    rcases hf with rfl | rfl | rfl | rfl | rfl | rfl | rfl
    · exact (hall ch (by simp [hch])).1
    · exact (flagString_chars c.flag ch hch).1
    · exact (hall ch (by simp [hch])).1
    · exact (flagString_chars c.secure ch hch).1
    · rw [hexp, saveExpiration_digits hepos] at hch
      exact (natDigits_chars _ ch hch).2.1
    · exact (hall ch (by simp [hch])).1
    · exact (hall ch (by simp [hch])).1
  have hvne : c.value ≠ [] := by
    intro hcon
    rw [hcon] at hlc
    simp at hlc
  have hstep := parseLineStep_joinChar (saveFields c) d (by simp [saveFields]) htab
    ⟨dh, dt, _, by rw [saveFields, hdom], hdh⟩
    (by
      intro hcon
      obtain ⟨r, hline⟩ := joinChar_head '\t' dh dt
        [flagString c.flag, c.path, flagString c.secure,
         saveExpirationString c.expiration, c.name, c.value]
      rw [saveFields, hdom] at hcon
      rw [hline] at hcon
      have hpf : ("#".data).isPrefixOf (dh :: r) = false := by
        refine hashHead_isPrefixOf_false ?_ hdh2 r
        rfl
      rw [hpf] at hcon
      simp at hcon)
    ⟨c.value, lc, by simp [saveFields], hlc, hlcw⟩
  rw [saveLineBody_eq_join, hstep, cookieFromFields_save h]
  rfl

/-! ### From one line to the whole saved file -/

theorem netscapeHeader_append (rest : List Char) :
    netscapeHeader ++ rest =
      "# Netscape HTTP Cookie File".data ++ '\n' ::
        ("# http://curl.haxx.se/rfc/cookie_spec.html".data ++ '\n' ::
          ("# This is a generated file!  Do not edit.".data ++ '\n' :: '\n' :: rest)) := rfl

theorem splitOnChar_header (rest : List Char) :
    splitOnChar '\n' (netscapeHeader ++ rest) =
      "# Netscape HTTP Cookie File".data ::
      "# http://curl.haxx.se/rfc/cookie_spec.html".data ::
      "# This is a generated file!  Do not edit.".data :: [] ::
      splitOnChar '\n' rest := by
  rw [netscapeHeader_append]
  rw [splitOnChar_append_sep _ (by decide), splitOnChar_append_sep _ (by decide),
    splitOnChar_append_sep _ (by decide), splitOnChar_sep_cons]

theorem splitOnChar_lines (bodies : List (List Char))
    (h : ∀ b ∈ bodies, ∀ c ∈ b, c ≠ '\n') :
    splitOnChar '\n' ((bodies.map (fun b => b ++ ['\n'])).flatten) = bodies ++ [[]] := by
  induction bodies with
  | nil => rfl
  | cons b bs ih =>
    rw [List.map_cons, List.flatten_cons, List.append_assoc, List.cons_append,
      List.nil_append]
    rw [splitOnChar_append_sep _ (h b (by simp)),
      ih (fun x hx c hc => h x (by simp [hx]) c hc), List.cons_append]

theorem mem_joinChar {sep : Char} {fs : List (List Char)} {ch : Char}
    (h : ch ∈ joinChar sep fs) : ch = sep ∨ ∃ f ∈ fs, ch ∈ f := by
  induction fs with
  | nil => simp [joinChar] at h
  | cons f fs ih =>
    cases fs with
    | nil => exact Or.inr ⟨f, by simp, h⟩
    | cons g rest =>
      rw [joinChar_cons _ _ (by simp)] at h
      rcases List.mem_append.mp h with hf | hrest
      · exact Or.inr ⟨f, by simp, hf⟩
      · rcases List.mem_cons.mp hrest with rfl | hjoin
        · exact Or.inl rfl
        · rcases ih hjoin with hs | ⟨f', hf', hc'⟩
          · exact Or.inl hs
          · exact Or.inr ⟨f', by simp [hf'], hc'⟩

theorem saveLineBody_chars {c : Cookie} (h : goodCookie c = true) :
    ∀ ch ∈ saveLineBody c, ch ≠ '\n' := by
  obtain ⟨hall, _, _, ⟨e, hexp, hepos⟩⟩ := goodCookie_spec h
  intro ch hch
  rw [saveLineBody_eq_join] at hch
  rcases mem_joinChar hch with rfl | ⟨f, hf, hcf⟩
  · decide
  · unfold saveFields at hf
    simp only [List.mem_cons, List.not_mem_nil, or_false] at hf
    rcases hf with rfl | rfl | rfl | rfl | rfl | rfl | rfl
    · exact (hall ch (by simp [hcf])).2
    · exact (flagString_chars c.flag ch hcf).2
    · exact (hall ch (by simp [hcf])).2
    · exact (flagString_chars c.secure ch hcf).2
    · rw [hexp, saveExpiration_digits hepos] at hcf
      exact (natDigits_chars _ ch hcf).2.2.1
    · exact (hall ch (by simp [hcf])).2
    · exact (hall ch (by simp [hcf])).2

theorem saveLineBody_strip {c : Cookie} (h : goodCookie c = true) :
    pyStrip (saveLineBody c) = saveLineBody c ∧ saveLineBody c ≠ [] := by
  obtain ⟨hall, ⟨dh, dt, hdom, hdh, _⟩, ⟨lc, hlc, hlcw⟩, _⟩ := goodCookie_spec h
  have hvne : c.value ≠ [] := by
    intro hcon
    rw [hcon] at hlc
    simp at hlc
  obtain ⟨r, hline⟩ := joinChar_head '\t' dh dt
    [flagString c.flag, c.path, flagString c.secure,
     saveExpirationString c.expiration, c.name, c.value]
  have hbody : saveLineBody c = dh :: r := by
    rw [saveLineBody_eq_join]
    unfold saveFields
    rw [hdom]
    exact hline
  have hl? : (saveLineBody c).getLast? = some lc := by
    rw [saveLineBody_eq_join]
    have h1 : (saveFields c).getLast? = some c.value := by simp [saveFields]
    rw [joinChar_getLast? h1 hvne, hlc]
  constructor
  · refine pyStrip_eq_self ?_ ?_
    · rw [hbody]
      intro x hx
      simp at hx
      rw [← hx]; exact hdh
    · intro x hx
      rw [hl?] at hx
      simp at hx
      rw [← hx]; exact hlcw
  · rw [hbody]; simp

theorem parseLineStep_comment (line : List Char) (d : List (List Char × Cookie))
    (h1 : "#".data.isPrefixOf line = true)
    (h2 : "#HttpOnly_".data.isPrefixOf line = false) :
    parseLineStep d line = d := by
  unfold parseLineStep
  rw [h1, h2]
  simp

theorem foldl_saveBodies (records : List Cookie)
    (h : ∀ c ∈ records, goodCookie c = true) :
    ∀ d, List.foldl parseLineStep d (records.map saveLineBody) =
      records.foldl (fun d c => dictSet d c.name c) d := by
  induction records with
  | nil => intro d; rfl
  | cons c cs ih =>
    intro d
    simp only [List.map_cons, List.foldl_cons]
    rw [parseLineStep_save (h c (by simp)) d]
    exact ih (fun x hx => h x (by simp [hx])) _

theorem parse_save (records : List Cookie)
    (h : ∀ c ∈ records, goodCookie c = true) :
    parse_from_string (save_to_file records) =
      records.foldl (fun d c => dictSet d c.name c) [] := by
  unfold parse_from_string
  have hmap : records.map saveCookieLine
      = (records.map saveLineBody).map (fun b => b ++ ['\n']) := by
    rw [List.map_map]; rfl
  have hs : splitOnChar '\n' (save_to_file records) =
      "# Netscape HTTP Cookie File".data ::
      "# http://curl.haxx.se/rfc/cookie_spec.html".data ::
      "# This is a generated file!  Do not edit.".data :: [] ::
      (records.map saveLineBody ++ [[]]) := by
    unfold save_to_file
    rw [hmap, splitOnChar_header, splitOnChar_lines]
    intro b hb
    rcases List.mem_map.mp hb with ⟨c, hc, rfl⟩
    exact saveLineBody_chars (h c hc)
  rw [hs]
  rw [List.filter_cons, if_pos (by decide), List.filter_cons, if_pos (by decide),
    List.filter_cons, if_pos (by decide), List.filter_cons, if_neg (by decide),
    List.filter_append]
  have hkeep : (records.map saveLineBody).filter (fun l => !(pyStrip l).isEmpty)
      = records.map saveLineBody := by
    rw [List.filter_eq_self]
    intro b hb
    rcases List.mem_map.mp hb with ⟨c, hc, rfl⟩
    obtain ⟨hstr, hne⟩ := saveLineBody_strip (h c hc)
    rw [hstr]
    simpa using hne
  have hnil : List.filter (fun l => !(pyStrip l).isEmpty) [([] : List Char)] = [] := by
    decide
  rw [hkeep, hnil, List.append_nil]
  simp only [List.foldl_cons]
  rw [parseLineStep_comment _ _ (by decide) (by decide),
    parseLineStep_comment _ _ (by decide) (by decide),
    parseLineStep_comment _ _ (by decide) (by decide)]
  exact foldl_saveBodies records h []

/-! ### Dict lemmas: lookup, membership, keys, counting -/

theorem dictFind_dictSet (d : List (List Char × Cookie)) (k : List Char) (v : Cookie)
    (k' : List Char) :
    dictFind (dictSet d k v) k' = if k' = k then some v else dictFind d k' := by
  induction d with
  | nil => rfl
  | cons q rest ih =>
    obtain ⟨qk, qv⟩ := q
    unfold dictSet
    by_cases h1 : k = qk
    · subst h1
      by_cases h2 : k' = k <;> simp [dictFind, h2]
    · rw [if_neg h1]
      by_cases h2 : k' = qk
      · have hne : k' ≠ k := by
          rw [h2]
          exact fun hc => h1 hc.symm
        simp [dictFind, h2, hne, show ¬qk = k from fun hc => h1 hc.symm]
      · by_cases h3 : k' = k
        · subst h3
          simp [dictFind, h2, ih]
        · simp [dictFind, h2, h3, ih]

theorem mem_dictSet {d : List (List Char × Cookie)} {k : List Char} {v : Cookie}
    {p : List Char × Cookie} (h : p ∈ dictSet d k v) : p = (k, v) ∨ p ∈ d := by
  induction d with
  | nil =>
    simp [dictSet] at h
    exact Or.inl h
  | cons q rest ih =>
    obtain ⟨qk, qv⟩ := q
    unfold dictSet at h
    by_cases h1 : k = qk
    · rw [if_pos h1] at h
      rcases List.mem_cons.mp h with rfl | hm
      · exact Or.inl rfl
      · exact Or.inr (by simp [hm])
    · rw [if_neg h1] at h
      rcases List.mem_cons.mp h with rfl | hm
      · exact Or.inr (by simp)
      · rcases ih hm with h2 | h2
        · exact Or.inl h2
        · exact Or.inr (by simp [h2])

theorem keysOf_dictSet (d : List (List Char × Cookie)) (k : List Char) (v : Cookie) :
    keysOf (dictSet d k v) = if k ∈ keysOf d then keysOf d else keysOf d ++ [k] := by
  induction d with
  | nil => simp [dictSet, keysOf]
  | cons q rest ih =>
    obtain ⟨qk, qv⟩ := q
    have hkeys : keysOf ((qk, qv) :: rest) = qk :: keysOf rest := rfl
    unfold dictSet
    by_cases h1 : k = qk
    · rw [if_pos h1]
      have hmem : k ∈ keysOf ((qk, qv) :: rest) := by
        rw [hkeys, h1]
        exact List.mem_cons_self qk _
      rw [if_pos hmem]
      rw [show keysOf ((k, v) :: rest) = k :: keysOf rest from rfl, hkeys, h1]
    · rw [if_neg h1]
      have hcons : keysOf ((qk, qv) :: dictSet rest k v) = qk :: keysOf (dictSet rest k v) := rfl
      by_cases h2 : k ∈ keysOf rest
      · have hmem : k ∈ keysOf ((qk, qv) :: rest) := by
          rw [hkeys]
          exact List.mem_cons_of_mem qk h2
        rw [if_pos hmem, hcons, ih, if_pos h2, hkeys]
      · have hmem : k ∉ keysOf ((qk, qv) :: rest) := by
          rw [hkeys]
          intro hcon
          rcases List.mem_cons.mp hcon with hc | hc
          · exact h1 hc
          · exact h2 hc
        rw [if_neg hmem, hcons, ih, if_neg h2, hkeys]
        rfl

theorem nodup_keysOf_dictSet {d : List (List Char × Cookie)}
    (h : (keysOf d).Nodup) (k : List Char) (v : Cookie) :
    (keysOf (dictSet d k v)).Nodup := by
  rw [keysOf_dictSet]
  by_cases h2 : k ∈ keysOf d
  · rw [if_pos h2]; exact h
  · rw [if_neg h2]
    rw [List.nodup_append]
    refine ⟨h, List.nodup_singleton k, ?_⟩
    intro a ha hb
    simp at hb
    subst hb
    exact h2 ha

theorem parseLineStep_eq_record (d : List (List Char × Cookie)) (line : List Char) :
    parseLineStep d line =
      match parseLineRecord line with
      | none => d
      | some (k, c) => dictSet d k c := by
  simp only [parseLineStep, parseLineRecord]
  by_cases h1 : ("#".data.isPrefixOf line && !("#HttpOnly_".data.isPrefixOf line)) = true
  · simp [h1]
  · by_cases h2 : 7 ≤ (splitOnChar '\t' (pyStrip line)).length <;> simp [h1, h2]

theorem parseLineRecord_name {line k : List Char} {c : Cookie}
    (h : parseLineRecord line = some (k, c)) : k = c.name := by
  simp only [parseLineRecord] at h
  split at h
  · exact absurd h (by simp)
  · split at h
    · rw [Option.some.injEq, Prod.mk.injEq] at h
      rw [← h.1, ← h.2]
      rfl
    · exact absurd h (by simp)

theorem foldl_keys_names (lines : List (List Char)) :
    ∀ d, (∀ p ∈ d, p.1 = p.2.name) →
      ∀ p ∈ List.foldl parseLineStep d lines, p.1 = p.2.name := by
  induction lines with
  | nil => intro d h; exact h
  | cons l ls ih =>
    intro d h
    rw [List.foldl_cons]
    refine ih _ ?_
    rw [parseLineStep_eq_record]
    cases hrec : parseLineRecord l with
    | none => exact h
    | some q =>
      obtain ⟨k, c⟩ := q
      intro p hp
      rcases mem_dictSet hp with rfl | hm
      · exact parseLineRecord_name hrec
      · exact h p hm

theorem nodup_keysOf_foldl (lines : List (List Char)) :
    ∀ d, (keysOf d).Nodup → (keysOf (List.foldl parseLineStep d lines)).Nodup := by
  induction lines with
  | nil => intro d h; exact h
  | cons l ls ih =>
    intro d h
    rw [List.foldl_cons]
    refine ih _ ?_
    rw [parseLineStep_eq_record]
    cases parseLineRecord l with
    | none => exact h
    | some q =>
      obtain ⟨k, c⟩ := q
      exact nodup_keysOf_dictSet h k c

theorem dictFind_foldl (nm : List Char) (lines : List (List Char)) :
    ∀ d, dictFind (List.foldl parseLineStep d lines) nm =
      match ((lines.filterMap parseLineRecord).filter (fun p => p.1 == nm)).getLast? with
      | some p => some p.2
      | none => dictFind d nm := by
  induction lines with
  | nil => intro d; rfl
  | cons l ls ih =>
    intro d
    rw [List.foldl_cons, ih (parseLineStep d l), List.filterMap_cons]
    cases hrec : parseLineRecord l with
    | none =>
      have hstep : parseLineStep d l = d := by
        rw [parseLineStep_eq_record, hrec]
      rw [hstep]
    | some q =>
      obtain ⟨k, c⟩ := q
      have hstep : parseLineStep d l = dictSet d k c := by
        rw [parseLineStep_eq_record, hrec]
      rw [hstep, List.filter_cons]
      by_cases hk : ((k, c).1 == nm) = true
      · rw [if_pos hk]
        have hknm : nm = k := by
          have : k = nm := by simpa using hk
          exact this.symm
        cases hfil : (ls.filterMap parseLineRecord).filter (fun p => p.1 == nm) with
        | nil =>
          show dictFind (dictSet d k c) nm = some (k, c).2
          rw [dictFind_dictSet, if_pos hknm]
        | cons e es =>
          cases hg : (e :: es).getLast? with
          | none => simp at hg
          | some q => rw [List.getLast?_cons_cons, hg]
      · rw [if_neg hk]
        have hknm : nm ≠ k := by
          intro hcon
          exact hk (by simp [hcon])
        cases hE : ((ls.filterMap parseLineRecord).filter (fun p => p.1 == nm)).getLast? with
        | some p => rfl
        | none =>
          show dictFind (dictSet d k c) nm = dictFind d nm
          rw [dictFind_dictSet, if_neg hknm]

theorem countP_dictFind (nm : List Char) (d : List (List Char × Cookie))
    (hnodup : (keysOf d).Nodup) (v : Cookie) (hfind : dictFind d nm = some v) :
    d.countP (fun p => p.1 == nm) = 1 := by
  induction d with
  | nil => simp [dictFind] at hfind
  | cons q rest ih =>
    obtain ⟨qk, qv⟩ := q
    rw [List.countP_cons]
    have hkeys : keysOf ((qk, qv) :: rest) = qk :: keysOf rest := rfl
    rw [hkeys] at hnodup
    have hnodup2 : qk ∉ keysOf rest ∧ (keysOf rest).Nodup := List.nodup_cons.mp hnodup
    unfold dictFind at hfind
    by_cases h2 : nm = qk
    · rw [if_pos h2] at hfind
      have hzero : rest.countP (fun p => p.1 == nm) = 0 := by
        rw [List.countP_eq_zero]
        intro p hp hbeq
        have hp1 : p.1 = nm := by simpa using hbeq
        have : p.1 ∈ keysOf rest := List.mem_map_of_mem Prod.fst hp
        rw [hp1, h2] at this
        exact hnodup2.1 this
      rw [hzero]
      simp [h2]
    · rw [if_neg h2] at hfind
      rw [ih hnodup2.2 hfind]
      have : ((qk, qv).1 == nm) = false := by
        simp only [beq_eq_false_iff_ne, ne_eq]
        exact fun hc => h2 hc.symm
      rw [this]
      rfl

/-! ### A few remaining helper lemmas -/

theorem joinChar_decomp (sep : Char) (f0 : List Char) (fs : List (List Char)) :
    ∃ r, joinChar sep (f0 :: fs) = f0 ++ r := by
  cases fs with
  | nil => exact ⟨[], by simp [joinChar]⟩
  | cons g rest => exact ⟨sep :: joinChar sep (g :: rest), rfl⟩

theorem isPrefixOf_append_self (a r : List Char) : a.isPrefixOf (a ++ r) = true := by
  induction a with
  | nil => exact isPrefixOf_nil_left _
  | cons x xs ih =>
    rw [List.cons_append, isPrefixOf_cons₂, ih]
    simp

theorem saveExpirationString_chars (e : Option Int) :
    ∀ ch ∈ saveExpirationString e, ch ≠ '\t' ∧ ch ≠ '\n' := by
  cases e with
  | none => simp [saveExpirationString]
  | some k =>
    show ∀ ch ∈ (if 0 < k then intStr k else []), ch ≠ '\t' ∧ ch ≠ '\n'
    by_cases hk : 0 < k
    · rw [if_pos hk, intStr_pos hk]
      intro ch hch
      exact ⟨(natDigits_chars _ ch hch).2.1, (natDigits_chars _ ch hch).2.2.1⟩
    · rw [if_neg hk]
      simp

theorem getD_take_of_lt (fs : List (List Char)) (i n : Nat) (h : i < n) :
    (fs.take n).getD i [] = fs.getD i [] := by
  rw [List.getD_eq_getElem?_getD, List.getD_eq_getElem?_getD, List.getElem?_take_of_lt h]

theorem cookieFromFields_take (fs : List (List Char)) :
    cookieFromFields (fs.take 7) = cookieFromFields fs := by
  unfold cookieFromFields
  rw [getD_take_of_lt fs 0 7 (by omega), getD_take_of_lt fs 1 7 (by omega),
    getD_take_of_lt fs 2 7 (by omega), getD_take_of_lt fs 3 7 (by omega),
    getD_take_of_lt fs 4 7 (by omega), getD_take_of_lt fs 5 7 (by omega),
    getD_take_of_lt fs 6 7 (by omega)]

/-! ### The claims -/

/-- C1, counterexample: the record with domain `d`, path `/`, name `n`,
empty value and expiration 5 has no tab or newline in any field value
and a non-zero expiration, yet parsing the saved file does not give back
the record keyed by name: the written line ends in a tab, the parser
strips it, only six fields remain and the line is dropped entirely. -/
theorem claim1_roundtrip_counterexample :
    (("d".data ++ "/".data ++ "n".data ++ ([] : List Char)).all
      (fun ch => ch != '\t' && ch != '\n')) = true ∧
    (some 5 : Option Int) ≠ some 0 ∧
    parse_from_string (save_to_file
      [⟨"d".data, true, "/".data, false, some 5, "n".data, []⟩]) ≠
      [("n".data, ⟨"d".data, true, "/".data, false, some 5, "n".data, []⟩)] := by
  decide

/-- C1 (amended): for records whose string fields carry no tab or
newline, whose domain is nonempty and starts with neither whitespace nor
`#`, whose value is nonempty and does not end in whitespace, and whose
expiration is present and strictly positive, parsing the text written by
`save_to_file` returns exactly the input records keyed by their names
(later records overwriting earlier ones of the same name). -/
theorem claim1_roundtrip (records : List Cookie)
    (h : ∀ c ∈ records, goodCookie c = true) :
    parse_from_string (save_to_file records) =
      records.foldl (fun d c => dictSet d c.name c) [] :=
  parse_save records h

/-- C1 witness: the round trip at one concrete good record. -/
theorem claim1_roundtrip_witness :
    (∀ c ∈ [(⟨"example.com".data, true, "/".data, false, some 5, "sid".data,
        "abc".data⟩ : Cookie)], goodCookie c = true) ∧
    parse_from_string (save_to_file
      [⟨"example.com".data, true, "/".data, false, some 5, "sid".data, "abc".data⟩]) =
      [(⟨"example.com".data, true, "/".data, false, some 5, "sid".data,
        "abc".data⟩ : Cookie)].foldl (fun d c => dictSet d c.name c) [] :=
  ⟨by decide, claim1_roundtrip _ (by decide)⟩

/-- C2, counterexample: a record with expiration `-5` (present and
non-zero) still renders an empty expiration field in the headered
writer, so the field is not empty *exactly when* expiration is 0 or
absent. -/
theorem claim2_expiration_counterexample :
    (splitOnChar '\t' (saveCookieLine
      ⟨"d".data, true, "/".data, false, some (-5), "n".data, "v".data⟩)).getD 4 [] = [] ∧
    (some (-5) : Option Int) ≠ some 0 ∧ (some (-5) : Option Int) ≠ none := by
  decide

/-- C2 (amended): in a `save_to_file` line of a cookie whose domain and
path carry no tab, the fifth tab field is empty exactly when the
expiration is absent or not strictly positive, and is the decimal
rendering of the expiration when it is positive; the header-less
serializer instead renders a missing (`None`) or zero expiry as the
literal string `0`. -/
theorem claim2_expiration_rendering (c : Cookie)
    (h1 : ∀ ch ∈ c.domain, ch ≠ '\t') (h2 : ∀ ch ∈ c.path, ch ≠ '\t') :
    ((splitOnChar '\t' (saveCookieLine c)).getD 4 [] =
      saveExpirationString c.expiration) ∧
    (saveExpirationString c.expiration = [] ↔ ¬∃ k, c.expiration = some k ∧ 0 < k) ∧
    (∀ k, c.expiration = some k → 0 < k →
      saveExpirationString c.expiration = intStr k) ∧
    (∀ rc : RawCookie, rc.expiry = none ∨ rc.expiry = some 0 →
      (rawRow rc).getD 4 [] = "0".data) := by
  refine ⟨?_, ?_, ?_, ?_⟩
  · have hshape : saveCookieLine c =
        c.domain ++ '\t' :: (flagString c.flag ++ '\t' :: (c.path ++ '\t' ::
          (flagString c.secure ++ '\t' :: (saveExpirationString c.expiration ++ '\t' ::
            (c.name ++ '\t' :: (c.value ++ ['\n'])))))) := by
      unfold saveCookieLine saveLineBody
      simp [List.append_assoc]
    rw [hshape,
      splitOnChar_append_sep _ h1,
      splitOnChar_append_sep _ (fun ch hch => (flagString_chars c.flag ch hch).1),
      splitOnChar_append_sep _ h2,
      splitOnChar_append_sep _ (fun ch hch => (flagString_chars c.secure ch hch).1),
      splitOnChar_append_sep _
        (fun ch hch => (saveExpirationString_chars c.expiration ch hch).1)]
    rfl
  · cases he : c.expiration with
    | none =>
      constructor
      · intro _
        rintro ⟨k, hk, _⟩
        exact absurd hk (by simp)
      · intro _
        rfl
    | some k =>
      show (if 0 < k then intStr k else []) = [] ↔ _
      by_cases hk : 0 < k
      · rw [if_pos hk, intStr_pos hk]
        constructor
        · intro hcon
          exact absurd hcon (natDigits_ne_nil k.toNat)
        · intro hcon
          exact absurd ⟨k, rfl, hk⟩ hcon
      · rw [if_neg hk]
        constructor
        · intro _
          rintro ⟨k', hk', hpos⟩
          rw [Option.some.injEq] at hk'
          exact hk (hk' ▸ hpos)
        · intro _
          rfl
  · intro k hk hpos
    rw [hk]
    show (if 0 < k then intStr k else []) = intStr k
    rw [if_pos hpos]
  · intro rc hrc
    have hrow : (rawRow rc).getD 4 [] = rawExpiryString rc.expiry := rfl
    rcases hrc with hnone | hzero
    · rw [hrow, hnone]
      rfl
    · rw [hrow, hzero]
      show (if (0 : Int) = 0 then "0".data else intStr 0) = "0".data
      rw [if_pos rfl]

/-- C2 witness: the amended rendering rule at a concrete record with
expiration 7. -/
theorem claim2_expiration_rendering_witness :
    (splitOnChar '\t' (saveCookieLine
      ⟨"d".data, true, "/".data, false, some 7, "n".data, "v".data⟩)).getD 4 []
      = intStr 7 := by
  have h := claim2_expiration_rendering
    ⟨"d".data, true, "/".data, false, some 7, "n".data, "v".data⟩ (by decide) (by decide)
  rw [h.1]
  exact h.2.2.1 7 rfl (by decide)

/-- C3, counterexample: on the line whose first field is
`#HttpOnly_a#HttpOnly_b`, the parser stores domain `ab` — `str.replace`
removes every occurrence of `#HttpOnly_` — whereas stripping only the
leading marker, as the claim states, would give `a#HttpOnly_b`. -/
theorem claim3_httponly_counterexample :
    (dictFind (parse_from_string
        "#HttpOnly_a#HttpOnly_b\tTRUE\t/\tFALSE\t0\tn\tv".data) "n".data).map
      Cookie.domain = some "ab".data ∧
    "ab".data ≠ specStripLeadingHttpOnly "#HttpOnly_a#HttpOnly_b".data := by
  decide

/-- C3 (amended): a line is skipped as a comment exactly when it starts
with `#` but not with `#HttpOnly_`; a well-formed tab-joined line whose
first field starts with `#HttpOnly_` is parsed, and the record's domain
is the first field with *every* occurrence of `#HttpOnly_` removed. -/
theorem claim3_httponly :
    (∀ (d : List (List Char × Cookie)) (line : List Char),
      "#".data.isPrefixOf line = true → "#HttpOnly_".data.isPrefixOf line = false →
      parseLineStep d line = d) ∧
    (∀ (fs : List (List Char)) (d : List (List Char × Cookie)) (f0 : List Char),
      fs.head? = some f0 → "#HttpOnly_".data.isPrefixOf f0 = true →
      7 ≤ fs.length → (∀ f ∈ fs, ∀ c ∈ f, c ≠ '\t') →
      (∃ fl lc, fs.getLast? = some fl ∧ fl.getLast? = some lc ∧ pyIsSpace lc = false) →
      parseLineStep d (joinChar '\t' fs) =
        dictSet d (fs.getD 5 []) (cookieFromFields fs) ∧
      (cookieFromFields fs).domain = removeHttpOnly f0) := by
  constructor
  · intro d line h1 h2
    exact parseLineStep_comment line d h1 h2
  · intro fs d f0 hhead hmark hlen htab hlast
    obtain ⟨r0, hf0⟩ := headChar_of_marker hmark
    cases fs with
    | nil => simp at hhead
    | cons g gs =>
      have hg : g = f0 := by simpa using hhead
      subst hg
      have hstep := parseLineStep_joinChar (g :: gs) d hlen htab
        ⟨'#', r0, gs, by rw [hf0], by decide⟩
        (by
          intro _
          obtain ⟨r, hr⟩ := joinChar_decomp '\t' g gs
          rw [hr]
          exact isPrefixOf_trans hmark (isPrefixOf_append_self g r))
        hlast
      refine ⟨hstep, ?_⟩
      have hmark9 : "#HttpOnly".data.isPrefixOf ((g :: gs).getD 0 []) = true := by
        rw [List.getD_cons_zero]
        exact isPrefixOf_trans (by decide) hmark
      show (if "#HttpOnly".data.isPrefixOf ((g :: gs).getD 0 []) then
        removeHttpOnly ((g :: gs).getD 0 []) else (g :: gs).getD 0 []) = removeHttpOnly g
      rw [if_pos hmark9]
      rfl

/-- C3 witness: the spec's own example line, built from its seven
fields: it is parsed (not skipped) and its domain is `example.com`. -/
theorem claim3_httponly_witness :
    parseLineStep [] (joinChar '\t' ["#HttpOnly_example.com".data, "TRUE".data,
        "/".data, "FALSE".data, "0".data, "sid".data, "abc123".data]) =
      dictSet [] "sid".data (cookieFromFields ["#HttpOnly_example.com".data,
        "TRUE".data, "/".data, "FALSE".data, "0".data, "sid".data, "abc123".data]) ∧
    (cookieFromFields ["#HttpOnly_example.com".data, "TRUE".data, "/".data,
        "FALSE".data, "0".data, "sid".data, "abc123".data]).domain =
      "example.com".data := by
  have h := claim3_httponly.2 ["#HttpOnly_example.com".data, "TRUE".data, "/".data,
      "FALSE".data, "0".data, "sid".data, "abc123".data] [] "#HttpOnly_example.com".data
    rfl (by decide) (by decide) (by decide)
    ⟨"abc123".data, '3', by decide, by decide, by decide⟩
  refine ⟨by rw [h.1]; rfl, ?_⟩
  rw [h.2]
  decide

/-- C4: a line whose strip-and-tab-split yields fewer than seven fields
leaves the parser's dict unchanged (and `parse_from_string` is exactly
the fold of `parseLineStep` over the nonblank lines, so such a line
contributes nothing to the result); no error is possible since the
embedding is a total function. -/
theorem claim4_short_line (d : List (List Char × Cookie)) (line : List Char)
    (h : (splitOnChar '\t' (pyStrip line)).length < 7) :
    parseLineStep d line = d := by
  simp only [parseLineStep]
  split
  · rfl
  · rw [if_neg (by omega)]

/-- C4 witness: a line with exactly six tab-separated fields is dropped. -/
theorem claim4_short_line_witness :
    (splitOnChar '\t' (pyStrip "d\tTRUE\t/\tFALSE\t0\tn".data)).length < 7 ∧
    parseLineStep [] "d\tTRUE\t/\tFALSE\t0\tn".data = [] :=
  ⟨by decide, claim4_short_line [] _ (by decide)⟩

/-- C5: in the embedding, an expiration field with a leading `-` fails
the all-digits test and the record is stored with expiration 0, no
failure; see the results file for the `str.isdigit` versus `int()`
mismatch on non-ASCII digit characters that the Python code inherits. -/
theorem claim5_negative_expiration_coerced :
    parse_from_string "d\tTRUE\t/\tFALSE\t-5\tn\tv".data =
      [("n".data, ⟨"d".data, true, "/".data, false, some 0, "n".data, "v".data⟩)] := by
  decide

/-- C6: when at least two parseable lines of the input share the name
`nm`, the parsed dict holds exactly one entry for `nm`, and it is the
record of the last such line. -/
theorem claim6_last_wins (s nm : List Char)
    (h : 2 ≤ (entriesFor s nm).length) :
    (parse_from_string s).countP (fun p => p.1 == nm) = 1 ∧
    dictFind (parse_from_string s) nm = ((entriesFor s nm).getLast?).map Prod.snd := by
  have hne : entriesFor s nm ≠ [] := by
    intro hcon
    rw [hcon] at h
    simp at h
  cases hE : (entriesFor s nm).getLast? with
  | none => exact absurd (List.getLast?_eq_none_iff.mp hE) hne
  | some p =>
    have hfind : dictFind (parse_from_string s) nm = some p.2 := by
      have hfold := dictFind_foldl nm
        ((splitOnChar '\n' s).filter (fun l => !(pyStrip l).isEmpty)) []
      have hE2 : (((((splitOnChar '\n' s).filter
          (fun l => !(pyStrip l).isEmpty)).filterMap parseLineRecord)).filter
          (fun p => p.1 == nm)).getLast? = some p := hE
      show dictFind (List.foldl parseLineStep []
        ((splitOnChar '\n' s).filter (fun l => !(pyStrip l).isEmpty))) nm = some p.2
      rw [hfold, hE2]
    refine ⟨?_, ?_⟩
    · have hnodup : (keysOf (parse_from_string s)).Nodup := by
        show (keysOf (List.foldl parseLineStep []
          ((splitOnChar '\n' s).filter (fun l => !(pyStrip l).isEmpty)))).Nodup
        exact nodup_keysOf_foldl _ [] (by simp [keysOf])
      exact countP_dictFind nm _ hnodup p.2 hfind
    · rw [hfind]
      rfl

/-- C6 witness: two lines named `n`; the second one wins and the dict
holds a single entry for `n`. -/
theorem claim6_last_wins_witness :
    2 ≤ (entriesFor "d\tTRUE\t/\tFALSE\t1\tn\tv\nx\tFALSE\t/p\tTRUE\t2\tn\tw".data
      "n".data).length ∧
    ((parse_from_string "d\tTRUE\t/\tFALSE\t1\tn\tv\nx\tFALSE\t/p\tTRUE\t2\tn\tw".data).countP
        (fun p => p.1 == "n".data) = 1 ∧
      dictFind (parse_from_string
          "d\tTRUE\t/\tFALSE\t1\tn\tv\nx\tFALSE\t/p\tTRUE\t2\tn\tw".data) "n".data =
        ((entriesFor "d\tTRUE\t/\tFALSE\t1\tn\tv\nx\tFALSE\t/p\tTRUE\t2\tn\tw".data
          "n".data).getLast?).map Prod.snd) :=
  ⟨by decide, claim6_last_wins _ _ (by decide)⟩

/-- C7: the second field built by `to_netscape_string` is the string
`TRUE` exactly when the domain is nonempty and starts with `.`, and the
string `FALSE` otherwise (an absent domain defaults to the empty string
and so renders `FALSE`). -/
theorem claim7_include_subdomains (rc : RawCookie) :
    ((rawRow rc).getD 1 [] = "TRUE".data ↔
      rc.domain ≠ [] ∧ rc.domain.head? = some '.') ∧
    ((rawRow rc).getD 1 [] = "FALSE".data ↔
      ¬(rc.domain ≠ [] ∧ rc.domain.head? = some '.')) := by
  have hrow : (rawRow rc).getD 1 [] = pyBoolUpper (includeSubDomain rc.domain) := rfl
  rw [hrow]
  cases hd : rc.domain with
  | nil =>
    have hsub : includeSubDomain [] = false := rfl
    rw [hsub]
    constructor
    · constructor
      · intro hcon
        exact absurd hcon (by decide)
      · rintro ⟨hne, _⟩
        exact absurd rfl hne
    · constructor
      · intro _
        rintro ⟨hne, _⟩
        exact absurd rfl hne
      · intro _
        rfl
  | cons c cs =>
    have hsub : includeSubDomain (c :: cs) = ('.' == c) := by
      unfold includeSubDomain
      rw [if_neg (by simp)]
      rw [show ".".data.isPrefixOf (c :: cs) = ('.' == c && List.isPrefixOf [] cs) from
        rfl, isPrefixOf_nil_left, Bool.and_true]
    rw [hsub]
    by_cases hc : c = '.'
    · subst hc
      rw [show (('.' : Char) == '.') = true from by decide]
      constructor
      · constructor
        · intro _
          exact ⟨by simp, by simp⟩
        · intro _
          rfl
      · constructor
        · intro hcon
          exact absurd hcon (by decide)
        · intro hcon
          exact absurd ⟨by simp, by simp⟩ hcon
    · have hbeq : (('.' : Char) == c) = false := by
        simp only [beq_eq_false_iff_ne, ne_eq]
        exact fun hcon => hc hcon.symm
      rw [hbeq]
      constructor
      · constructor
        · intro hcon
          exact absurd hcon (by decide)
        · rintro ⟨_, hh⟩
          simp only [List.head?_cons, Option.some.injEq] at hh
          exact absurd hh hc
      · constructor
        · intro _
          rintro ⟨_, hh⟩
          simp only [List.head?_cons, Option.some.injEq] at hh
          exact absurd hh hc
        · intro _
          rfl

/-- C8: the spec's concrete serialization example, bit for bit. -/
theorem claim8_exact_serialization :
    to_netscape_string [⟨".x.com".data, some 1700000000, "/".data, true,
        "a".data, "1".data⟩] =
      ".x.com\tTRUE\t/\tTRUE\t1700000000\ta\t1".data := by
  decide

/-- C9: every key of the parsed dict equals the name field of the record
it maps to. -/
theorem claim9_keyed_by_name (s k : List Char) (c : Cookie)
    (h : (k, c) ∈ parse_from_string s) : k = c.name :=
  foldl_keys_names ((splitOnChar '\n' s).filter (fun l => !(pyStrip l).isEmpty)) []
    (by simp) (k, c) h

/-- C9 witness: the key of a concrete parsed entry is its record's name. -/
theorem claim9_keyed_by_name_witness :
    ("n".data, (⟨"d".data, true, "/".data, false, some 1, "n".data,
        "v".data⟩ : Cookie)) ∈
      parse_from_string "d\tTRUE\t/\tFALSE\t1\tn\tv".data ∧
    "n".data = (⟨"d".data, true, "/".data, false, some 1, "n".data,
      "v".data⟩ : Cookie).name :=
  ⟨by decide, claim9_keyed_by_name "d\tTRUE\t/\tFALSE\t1\tn\tv".data "n".data
    ⟨"d".data, true, "/".data, false, some 1, "n".data, "v".data⟩ (by decide)⟩

/-- C10: a well-formed tab-joined line with more than seven fields is
parsed from its first seven fields only; in particular the stored value
is field seven, not the rest of the line. -/
theorem claim10_extra_fields (fs : List (List Char)) (d : List (List Char × Cookie))
    (hlen : 7 < fs.length)
    (htab : ∀ f ∈ fs, ∀ c ∈ f, c ≠ '\t')
    (hhead : ∃ dh dt fs', fs = (dh :: dt) :: fs' ∧ pyIsSpace dh = false ∧ dh ≠ '#')
    (hlast : ∃ fl lc, fs.getLast? = some fl ∧ fl.getLast? = some lc ∧
      pyIsSpace lc = false) :
    parseLineStep d (joinChar '\t' fs) =
      dictSet d ((fs.take 7).getD 5 []) (cookieFromFields (fs.take 7)) := by
  obtain ⟨dh, dt, fs', hfs, hdh, hdh2⟩ := hhead
  have hstep := parseLineStep_joinChar fs d (by omega) htab ⟨dh, dt, fs', hfs, hdh⟩
    (by
      intro hcon
      obtain ⟨r, hr⟩ := joinChar_head '\t' dh dt fs'
      rw [hfs, hr] at hcon
      have hpf : ("#".data).isPrefixOf (dh :: r) = false := by
        refine hashHead_isPrefixOf_false ?_ hdh2 r
        rfl
      rw [hpf] at hcon
      simp at hcon)
    hlast
  rw [hstep, getD_take_of_lt fs 5 7 (by omega), cookieFromFields_take fs]

/-- C10 witness: an eight-field line; the record equals the one built
from the first seven fields, the eighth field is ignored. -/
theorem claim10_extra_fields_witness :
    parseLineStep [] (joinChar '\t' ["d".data, "TRUE".data, "/".data, "FALSE".data,
        "5".data, "n".data, "v".data, "extra".data]) =
      dictSet [] ((["d".data, "TRUE".data, "/".data, "FALSE".data, "5".data,
          "n".data, "v".data, "extra".data].take 7).getD 5 [])
        (cookieFromFields (["d".data, "TRUE".data, "/".data, "FALSE".data, "5".data,
          "n".data, "v".data, "extra".data].take 7)) :=
  claim10_extra_fields _ [] (by decide) (by decide)
    ⟨'d', [], _, rfl, by decide, by decide⟩
    ⟨"extra".data, 'a', by decide, by decide, by decide⟩

end NetscapeCookies
